import Mathlib

/-!
Calculator-on-RDP: the scanner of `src/parsing/find_token.cpp`.

A shallow embedding of `get_next_state`, `is_accepted`, `fsm` and
`parsing::tokenizer::find_token`, followed by the properties of the
specification that concern them.

Modelling decisions.

* `fsm` receives only an iterator, never the end of the view.  The embedding
  therefore hands it the characters stored from the iterator up to the end of
  the underlying object (`string_view.data`); the length of the view
  (`string_view.size`) plays no part in the scan.  A read beyond the end of the
  object is the fault `out_of_bounds`.
* `std::vector<e_state>` is a list whose head is `back()`.
* `char_table.hpp` and `token.hpp` are not among the sources: the character
  table is a parameter of every function, and the token record is modelled
  from the specification.
-/

namespace parsing

/-- The states of the scanner, `enum class e_state`. -/
inductive e_state where
  | error
  | start
  | whitespaces
  | operators
  | parenthesis
  | zero
  | nonzero_digits
  | floating
  | word
  deriving DecidableEq, Repr

/-- The character classes, `enum class e_char`. -/
inductive e_char where
  | invalid
  | whitespace
  | parenthesis
  | operators
  | zero
  | nonzero_digit
  | dot
  | character
  deriving DecidableEq, Repr

/-- What the embedding reports where the C++ program has no defined result. -/
inductive fault where
  /-- A read through the iterator beyond the end of the underlying object. -/
  | out_of_bounds
  /-- The call `stack.back()` on an empty vector. -/
  | empty_stack
  /-- The iterator is moved in front of the first character. -/
  | before_begin
  /-- The exception `std::out_of_range` of `string_view::substr`. -/
  | out_of_range
  /-- The loop of `find_token` was cut off by the fuel of the embedding. -/
  | out_of_fuel
  deriving DecidableEq, Repr

/-- The transition function `get_next_state` (lines 31-98). -/
def get_next_state (state : e_state) (char_type : e_char) : e_state :=
  match state with
  | .error => state
  | .start =>
    match char_type with
    | .whitespace => .whitespaces
    | .operators => .operators
    | .parenthesis => .parenthesis
    | .zero => .zero
    | .nonzero_digit => .nonzero_digits
    | .character => .word
    | _ => .error
  | .whitespaces =>
    if char_type = .whitespace then state else .error
  | .operators => .error
  | .parenthesis => .error
  | .zero =>
    if char_type = .dot then .floating else .error
  | .nonzero_digits =>
    match char_type with
    | .dot => .floating
    | .zero => .nonzero_digits
    | .nonzero_digit => .nonzero_digits
    | _ => .error
  | .floating =>
    if char_type = .nonzero_digit ∨ char_type = .zero then .floating else .error
  | .word =>
    if char_type = .character then .word else .error

/-- The predicate `is_accepted` (lines 100-115). -/
def is_accepted (state : e_state) : Bool :=
  match state with
  | .whitespaces => true
  | .operators => true
  | .parenthesis => true
  | .zero => true
  | .nonzero_digits => true
  | .floating => true
  | .word => true
  | _ => false

/-- The first loop of `fsm` (lines 126-133).  `mem` holds the characters from
the iterator to the end of the underlying object, `pos` is the offset of the
iterator from where `fsm` received it, `stack` is the vector with `back()` at
the head.  The result is the state, the stack and the offset when the loop
is left. -/
def fsm_scan (char_table : Char → e_char) :
    List Char → e_state → List e_state → Nat → Except fault (e_state × List e_state × Nat)
  | [], state, stack, pos =>
    if state ≠ .error then .error .out_of_bounds else .ok (state, stack, pos)
  | c :: mem, state, stack, pos =>
    if state ≠ .error then
      let char_type := char_table c
      let state := get_next_state state char_type
      let stack := if is_accepted state then [] else stack
      fsm_scan char_table mem state (state :: stack) (pos + 1)
    else .ok (state, stack, pos)

/-- The second loop of `fsm` (lines 134-138): pop a state and step the
iterator back, as long as the state is neither accepting nor `error`. -/
def fsm_backtrack : List e_state → e_state → Nat → Except fault (e_state × Nat)
  | [], state, pos =>
    if !is_accepted state ∧ state ≠ .error then .error .empty_stack else .ok (state, pos)
  | top :: stack, state, pos =>
    if !is_accepted state ∧ state ≠ .error then
      match pos with
      | 0 => .error .before_begin
      | pos + 1 => fsm_backtrack stack top pos
    else .ok (state, pos)

/-- The scanner `fsm` (lines 117-144): the returned state together with the
offset at which it leaves the iterator it was given by reference. -/
def fsm (char_table : Char → e_char) (mem : List Char) : Except fault (e_state × Nat) :=
  match fsm_scan char_table mem .start [.error] 0 with
  | .error f => .error f
  | .ok (state, stack, pos) =>
    match fsm_backtrack stack state pos with
    | .error f => .error f
    | .ok (state, pos) =>
      if is_accepted state then .ok (state, pos) else .ok (.error, pos)

/-- A `std::string_view`: `data` lists the characters stored from `data()` to
the end of the underlying object, `size` is the length of the view. -/
structure string_view where
  data : List Char
  size : Nat
  deriving DecidableEq, Repr

/-- The characters a view denotes. -/
def string_view.text (input : string_view) : List Char :=
  input.data.take input.size

/-- A view is well formed when it lies inside the underlying object. -/
def string_view.wf (input : string_view) : Prop :=
  input.size ≤ input.data.length

instance (input : string_view) : Decidable input.wf := by
  unfold string_view.wf
  infer_instance

/-- The call `input.substr(pos, npos)`, which throws when `pos > size()`. -/
def string_view.substr (input : string_view) (pos : Nat) : Except fault string_view :=
  if pos > input.size then .error .out_of_range
  else .ok ⟨input.data.drop pos, input.size - pos⟩

/-- The view of a NUL-terminated string, as `std::string_view sv = "..."`. -/
def string_view.of_c_str (s : String) : string_view :=
  ⟨s.toList ++ [Char.ofNat 0], s.length⟩

/-- The view of a character array that holds exactly the characters of `s`,
with no terminator behind them. -/
def string_view.of_array (s : String) : string_view :=
  ⟨s.toList, s.length⟩

namespace token

/-- Modelled from the spec: `token.hpp` is not among the sources.  The
category tags are the six enumerators of `token::type` that `find_token`
assigns. -/
inductive type where
  | op
  | parenthesis
  | zero
  | nonzero_digit
  | floating
  | word
  deriving DecidableEq, Repr

end token

/-- Modelled from the spec: `token.hpp` is not among the sources.  A token is a
view onto the input plus a category tag, or the empty marker `token{}`. -/
inductive token where
  | empty
  | mk (text : string_view) (type : token.type)
  deriving DecidableEq, Repr

/-- The loop `while (true)` of `find_token` (lines 154-186), one iteration per
unit of fuel. -/
def find_token_loop (char_table : Char → e_char) : Nat → string_view → Except fault token
  | 0, _ => .error .out_of_fuel
  | fuel + 1, input =>
    match fsm char_table input.data with
    | .error f => .error f
    | .ok (cur_state, n) =>
      match cur_state with
      | .whitespaces =>
        match input.substr n with
        | .error f => .error f
        | .ok input => find_token_loop char_table fuel input
      | .operators => .ok (token.mk ⟨input.data, n⟩ .op)
      | .parenthesis => .ok (token.mk ⟨input.data, n⟩ .parenthesis)
      | .zero => .ok (token.mk ⟨input.data, n⟩ .zero)
      | .nonzero_digits => .ok (token.mk ⟨input.data, n⟩ .nonzero_digit)
      | .floating => .ok (token.mk ⟨input.data, n⟩ .floating)
      | .word => .ok (token.mk ⟨input.data, n⟩ .word)
      | .start => .ok token.empty
      | .error => .ok token.empty

/-- The function `parsing::tokenizer::find_token` (lines 146-188).  An
iteration that does not return cuts the characters `fsm` stepped over off the
view, so the loop is given `size + 1` iterations; `find_token_loop_succ` below
shows that the first one already returns. -/
def find_token (char_table : Char → e_char) (input : string_view) : Except fault token :=
  find_token_loop char_table (input.size + 1) input

/-- Modelled from the spec: `char_table.hpp` is not among the sources.  A
character table in the sense of section 4.1, total on all characters: blank,
tab and line feed are whitespace, the two round brackets are parentheses,
`+ - * /` are operators, `0` is the zero digit, `1`..`9` the nonzero digits,
`.` the dot, the ASCII letters are word characters; everything else, the NUL
character included, is invalid. -/
def sample_char_table (c : Char) : e_char :=
  if c = ' ' ∨ c.toNat = 9 ∨ c.toNat = 10 then .whitespace
  else if c = '(' ∨ c = ')' then .parenthesis
  else if c = '+' ∨ c = '-' ∨ c = '*' ∨ c = '/' then .operators
  else if c = '0' then .zero
  else if '1'.toNat ≤ c.toNat ∧ c.toNat ≤ '9'.toNat then .nonzero_digit
  else if c = '.' then .dot
  else if c.isAlpha then .character
  else .invalid

/-- The state reached from `state` by folding `get_next_state` over a sequence
of character classes. -/
def fold_states (state : e_state) (classes : List e_char) : e_state :=
  classes.foldl get_next_state state

/-- The class of a character is one of the two digit classes. -/
def is_digit_class (char_type : e_char) : Prop :=
  char_type = .zero ∨ char_type = .nonzero_digit

instance (char_type : e_char) : Decidable (is_digit_class char_type) := by
  unfold is_digit_class
  infer_instance

/-- The transition table of section 4.2 of the specification, written row by
row as the specification lists it; every pair the table does not list, the
whole row of `error` included, goes to `error`. -/
def spec_table : e_state → e_char → e_state
  | .start, .whitespace => .whitespaces
  | .start, .parenthesis => .parenthesis
  | .start, .operators => .operators
  | .start, .zero => .zero
  | .start, .nonzero_digit => .nonzero_digits
  | .start, .character => .word
  | .whitespaces, .whitespace => .whitespaces
  | .zero, .dot => .floating
  | .nonzero_digits, .zero => .nonzero_digits
  | .nonzero_digits, .nonzero_digit => .nonzero_digits
  | .nonzero_digits, .dot => .floating
  | .floating, .zero => .floating
  | .floating, .nonzero_digit => .floating
  | .word, .character => .word
  | _, _ => .error

/-- The number of times the first loop of `fsm` evaluates `*itr++`, entered
in `state` with `mem` in front of the iterator.  This is the only place where
`fsm` reads a character; the reads are at the offsets 0, 1, 2, ... in turn, and
a read beyond the end of the underlying object is counted too. -/
def fsm_reads (char_table : Char → e_char) : List Char → e_state → Nat
  | [], state => if state ≠ .error then 1 else 0
  | c :: mem, state =>
    if state ≠ .error then fsm_reads char_table mem (get_next_state state (char_table c)) + 1
    else 0

/-- The loop of `find_token` (lines 154-186) with the call `fsm(end)` of line
157 taken as a parameter `scan`, which maps the memory in front of the
iterator to the returned state and the offset of the iterator; the rest is the
loop as it is written.  With `fsm char_table` for `scan` this is
`find_token_loop char_table` (`find_token_loop_eq_with` below). -/
def find_token_loop_with (scan : List Char → Except fault (e_state × Nat)) :
    Nat → string_view → Except fault token
  | 0, _ => .error .out_of_fuel
  | fuel + 1, input =>
    match scan input.data with
    | .error f => .error f
    | .ok (cur_state, n) =>
      match cur_state with
      | .whitespaces =>
        match input.substr n with
        | .error f => .error f
        | .ok input => find_token_loop_with scan fuel input
      | .operators => .ok (token.mk ⟨input.data, n⟩ .op)
      | .parenthesis => .ok (token.mk ⟨input.data, n⟩ .parenthesis)
      | .zero => .ok (token.mk ⟨input.data, n⟩ .zero)
      | .nonzero_digits => .ok (token.mk ⟨input.data, n⟩ .nonzero_digit)
      | .floating => .ok (token.mk ⟨input.data, n⟩ .floating)
      | .word => .ok (token.mk ⟨input.data, n⟩ .word)
      | .start => .ok token.empty
      | .error => .ok token.empty

/-- The whitespace-stripped input: the view that the loop of `find_token`
holds in the iteration in which the scanner first returns a state other than
`whitespaces`. -/
def skip_whitespaces (scan : List Char → Except fault (e_state × Nat)) :
    Nat → string_view → Except fault string_view
  | 0, _ => .error .out_of_fuel
  | fuel + 1, input =>
    match scan input.data with
    | .error f => .error f
    | .ok (cur_state, n) =>
      if cur_state = .whitespaces then
        match input.substr n with
        | .error f => .error f
        | .ok input => skip_whitespaces scan fuel input
      else .ok input

/-- The token category that section 4.3 of the specification names for an
accepted state of the scanner; none for `whitespaces`, `start` and `error`. -/
def category_of : e_state → Option token.type
  | .operators => some .op
  | .parenthesis => some .parenthesis
  | .zero => some .zero
  | .nonzero_digits => some .nonzero_digit
  | .floating => some .floating
  | .word => some .word
  | _ => none

/-- The scan behind `scan_longest`: `best` is the last accepting state met and
the number of characters that led to it. -/
def scan_longest_from (char_table : Char → e_char) :
    List Char → e_state → Nat → e_state × Nat → e_state × Nat
  | [], _, _, best => best
  | c :: mem, state, pos, best =>
    if get_next_state state (char_table c) = .error then best
    else
      scan_longest_from char_table mem (get_next_state state (char_table c)) (pos + 1)
        (if is_accepted (get_next_state state (char_table c))
          then (get_next_state state (char_table c), pos + 1) else best)

/-- A scanner that meets the contract of section 4.2 of the specification: it
returns the accepting state and the length of the longest initial run of the
memory that the machine accepts, and `error` with length 0 when it accepts no
non-empty run.  It is not part of the program; it serves to run the loop of
`find_token` on results that `fsm` never returns. -/
def scan_longest (char_table : Char → e_char) (mem : List Char) :
    Except fault (e_state × Nat) :=
  .ok (scan_longest_from char_table mem .start 0 (.error, 0))

/-- The round trip of section 8 of the specification over a tokenizer `find`:
call `find` on the remaining input until it returns `token{}`, and collect for
every token the characters from the start of the remaining input to the end of
the token's span, that is the whitespace skipped before the span and the span
itself.  The input that remains after a token starts at the end of its
span. -/
def round_trip (find : string_view → Except fault token) :
    Nat → string_view → Except fault (List Char)
  | 0, _ => .error .out_of_fuel
  | fuel + 1, input =>
    match find input with
    | .error f => .error f
    | .ok token.empty => .ok []
    | .ok (token.mk text _) =>
      match input.substr (input.data.length - text.data.length + text.size) with
      | .error f => .error f
      | .ok rest =>
        match round_trip find fuel rest with
        | .error f => .error f
        | .ok spans =>
          .ok (input.data.take (input.data.length - text.data.length + text.size) ++ spans)

/-- The number of dots that a class sequence leading from `state` to an
accepting state can still hold. -/
def max_dots : e_state → Nat
  | .start => 1
  | .zero => 1
  | .nonzero_digits => 1
  | _ => 0

/-! ## General facts about the scanner -/

theorem get_next_state_error (char_type : e_char) :
    get_next_state .error char_type = .error := rfl

theorem fold_states_error (classes : List e_char) :
    fold_states .error classes = .error := by
  induction classes with
  | nil => rfl
  | cons c cs ih => simpa [fold_states] using ih

theorem fold_states_cons (state : e_state) (c : e_char) (cs : List e_char) :
    fold_states state (c :: cs) = fold_states (get_next_state state c) cs := rfl

/-- Entered in state `error`, the first loop of `fsm` is left at once. -/
theorem fsm_scan_error (char_table : Char → e_char) (mem : List Char)
    (stack : List e_state) (pos : Nat) :
    fsm_scan char_table mem .error stack pos = .ok (.error, stack, pos) := by
  cases mem <;> rfl

/-- One iteration of the first loop of `fsm`. -/
theorem fsm_scan_step (char_table : Char → e_char) (c : Char) (mem : List Char)
    (state : e_state) (stack : List e_state) (pos : Nat) (h : state ≠ .error) :
    fsm_scan char_table (c :: mem) state stack pos =
      fsm_scan char_table mem (get_next_state state (char_table c))
        (get_next_state state (char_table c) ::
          if is_accepted (get_next_state state (char_table c)) then [] else stack)
        (pos + 1) := by
  simp [fsm_scan, h]

/-- The first loop of `fsm` is only ever left in state `error`. -/
theorem fsm_scan_ok_error (char_table : Char → e_char) (mem : List Char) :
    ∀ (state : e_state) (stack : List e_state) (pos : Nat)
      (r : e_state × List e_state × Nat),
      fsm_scan char_table mem state stack pos = .ok r → r.1 = .error := by
  induction mem with
  | nil =>
    intro state stack pos r h
    by_cases hs : state = .error
    · subst hs
      simp [fsm_scan] at h
      rw [← h]
    · simp [fsm_scan, hs] at h
  | cons c mem ih =>
    intro state stack pos r h
    by_cases hs : state = .error
    · subst hs
      rw [fsm_scan_error] at h
      cases h
      rfl
    · rw [fsm_scan_step _ _ _ _ _ _ hs] at h
      exact ih _ _ _ _ h

/-- Entered in state `error`, the second loop of `fsm` does not run. -/
theorem fsm_backtrack_error (stack : List e_state) (pos : Nat) :
    fsm_backtrack stack .error pos = .ok (.error, pos) := by
  cases stack <;> rfl

/-- Whenever `fsm` returns, it returns `e_state::error`. -/
theorem fsm_ok_error (char_table : Char → e_char) (mem : List Char)
    (r : e_state × Nat) (h : fsm char_table mem = .ok r) : r.1 = .error := by
  unfold fsm at h
  split at h
  · cases h
  · rename_i state stack pos hscan
    have hs : state = .error := fsm_scan_ok_error _ _ _ _ _ _ hscan
    subst hs
    rw [fsm_backtrack_error] at h
    simp [is_accepted] at h
    rw [← h]

/-- Whenever the loop of `find_token` returns a token, it is `token{}`. -/
theorem find_token_loop_ok_empty (char_table : Char → e_char) (fuel : Nat)
    (input : string_view) (tok : token)
    (h : find_token_loop char_table fuel input = .ok tok) : tok = token.empty := by
  cases fuel with
  | zero => simp [find_token_loop] at h
  | succ fuel =>
    unfold find_token_loop at h
    split at h
    · cases h
    · rename_i cur_state n hfsm
      have hs : cur_state = .error := fsm_ok_error _ _ _ hfsm
      subst hs
      simp at h
      exact h.symm

/-- The loop of `find_token` is left in its first iteration: with any fuel
at all, its result is the fault of `fsm`, or `token{}` when `fsm` returns.  In
particular the fuel of the embedding never runs out. -/
theorem find_token_loop_succ (char_table : Char → e_char) (fuel : Nat)
    (input : string_view) :
    find_token_loop char_table (fuel + 1) input =
      match fsm char_table input.data with
      | .error f => .error f
      | .ok _ => .ok token.empty := by
  unfold find_token_loop
  split
  · rename_i f hfsm
    rw [hfsm]
  · rename_i cur_state n hfsm
    have hs : cur_state = .error := fsm_ok_error _ _ _ hfsm
    subst hs
    rw [hfsm]

/-- Whenever `find_token` returns a token, it is `token{}`. -/
theorem find_token_ok_empty (char_table : Char → e_char) (input : string_view)
    (tok : token) (h : find_token char_table input = .ok tok) : tok = token.empty :=
  find_token_loop_ok_empty _ _ _ _ h

/-- The first loop of `fsm` on characters `pre` that keep the machine out of
`error`, followed by a character `c` that drives it into `error`: the loop is
left in `error` with the iterator one past `c`. -/
theorem fsm_scan_run (char_table : Char → e_char) (c : Char) (rest : List Char)
    (pre : List Char) :
    ∀ (state : e_state) (stack : List e_state) (pos : Nat),
      fold_states state (pre.map char_table) ≠ .error →
      get_next_state (fold_states state (pre.map char_table)) (char_table c) = .error →
      ∃ stack', fsm_scan char_table (pre ++ c :: rest) state stack pos =
        .ok (.error, stack', pos + pre.length + 1) := by
  induction pre with
  | nil =>
    intro state stack pos h1 h2
    have h1 : state ≠ .error := h1
    have h2 : get_next_state state (char_table c) = .error := h2
    refine ⟨.error :: stack, ?_⟩
    rw [List.nil_append, fsm_scan_step _ _ _ _ _ _ h1, h2, fsm_scan_error]
    simp [is_accepted]
  | cons p pre ih =>
    intro state stack pos h1 h2
    rw [List.map_cons, fold_states_cons] at h1 h2
    have hs : state ≠ .error := by
      intro he
      subst he
      rw [get_next_state_error, fold_states_error] at h1
      exact h1 rfl
    obtain ⟨stack', hst⟩ := ih _
      (get_next_state state (char_table p) ::
        if is_accepted (get_next_state state (char_table p)) then [] else stack)
      (pos + 1) h1 h2
    refine ⟨stack', ?_⟩
    rw [List.cons_append, fsm_scan_step _ _ _ _ _ _ hs, hst, List.length_cons]
    congr 3
    omega

/-- The result of `fsm` on such a memory: `error`, with the iterator one past
the character that drove the machine into `error`. -/
theorem fsm_run (char_table : Char → e_char) (pre : List Char) (c : Char)
    (rest : List Char)
    (h1 : fold_states .start (pre.map char_table) ≠ .error)
    (h2 : get_next_state (fold_states .start (pre.map char_table)) (char_table c) = .error) :
    fsm char_table (pre ++ c :: rest) = .ok (.error, pre.length + 1) := by
  obtain ⟨stack', hst⟩ := fsm_scan_run char_table c rest pre .start [.error] 0 h1 h2
  unfold fsm
  rw [hst]
  simp only [fsm_backtrack_error]
  simp [is_accepted]

/-- The result of `find_token` on such a memory, whatever the length of the
view: `token{}`. -/
theorem find_token_run (char_table : Char → e_char) (pre : List Char) (c : Char)
    (rest : List Char) (size : Nat)
    (h1 : fold_states .start (pre.map char_table) ≠ .error)
    (h2 : get_next_state (fold_states .start (pre.map char_table)) (char_table c) = .error) :
    find_token char_table ⟨pre ++ c :: rest, size⟩ = .ok token.empty := by
  unfold find_token find_token_loop
  rw [fsm_run char_table pre c rest h1 h2]

/-! ## What the scanner does on the input classes of the specification -/

theorem fold_states_whitespaces (char_table : Char → e_char) (ws : List Char)
    (h : ∀ w ∈ ws, char_table w = .whitespace) :
    fold_states .whitespaces (ws.map char_table) = .whitespaces := by
  induction ws with
  | nil => rfl
  | cons w ws ih =>
    rw [List.map_cons, fold_states_cons, h w (List.mem_cons_self _ _)]
    exact ih (fun x hx => h x (List.mem_cons_of_mem _ hx))

theorem fold_states_nonzero_digits (char_table : Char → e_char) (ds : List Char)
    (h : ∀ d ∈ ds, is_digit_class (char_table d)) :
    fold_states .nonzero_digits (ds.map char_table) = .nonzero_digits := by
  induction ds with
  | nil => rfl
  | cons d ds ih =>
    rw [List.map_cons, fold_states_cons]
    have hd : get_next_state .nonzero_digits (char_table d) = .nonzero_digits := by
      rcases h d (List.mem_cons_self _ _) with hz | hn
      · rw [hz]; rfl
      · rw [hn]; rfl
    rw [hd]
    exact ih (fun x hx => h x (List.mem_cons_of_mem _ hx))

theorem fold_states_floating (char_table : Char → e_char) (ds : List Char)
    (h : ∀ d ∈ ds, is_digit_class (char_table d)) :
    fold_states .floating (ds.map char_table) = .floating := by
  induction ds with
  | nil => rfl
  | cons d ds ih =>
    rw [List.map_cons, fold_states_cons]
    have hd : get_next_state .floating (char_table d) = .floating := by
      rcases h d (List.mem_cons_self _ _) with hz | hn
      · rw [hz]; rfl
      · rw [hn]; rfl
    rw [hd]
    exact ih (fun x hx => h x (List.mem_cons_of_mem _ hx))

/-- On a nonzero digit, further digits and then a character that is neither a
digit nor a dot, `find_token` returns `token{}`. -/
theorem find_token_integer_then_other (char_table : Char → e_char) (d : Char)
    (ds : List Char) (c : Char) (rest : List Char) (size : Nat)
    (hd : char_table d = .nonzero_digit)
    (hds : ∀ x ∈ ds, is_digit_class (char_table x))
    (hc : ¬ is_digit_class (char_table c)) (hdot : char_table c ≠ .dot) :
    find_token char_table ⟨d :: ds ++ c :: rest, size⟩ = .ok token.empty := by
  have hfold : fold_states .start ((d :: ds).map char_table) = .nonzero_digits := by
    rw [List.map_cons, fold_states_cons, hd]
    exact fold_states_nonzero_digits char_table ds hds
  have h := find_token_run char_table (d :: ds) c rest size
    (by rw [hfold]; decide)
    (by
      rw [hfold]
      unfold is_digit_class at hc
      cases hct : char_table c <;> simp_all [get_next_state])
  simpa using h

/-- On a zero, a dot, further digits and then a character that is not a
digit, `find_token` returns `token{}`. -/
theorem find_token_zero_dot_then_other (char_table : Char → e_char) (z p : Char)
    (ds : List Char) (c : Char) (rest : List Char) (size : Nat)
    (hz : char_table z = .zero) (hp : char_table p = .dot)
    (hds : ∀ x ∈ ds, is_digit_class (char_table x))
    (hc : ¬ is_digit_class (char_table c)) :
    find_token char_table ⟨z :: p :: ds ++ c :: rest, size⟩ = .ok token.empty := by
  have hfold : fold_states .start ((z :: p :: ds).map char_table) = .floating := by
    rw [List.map_cons, List.map_cons, fold_states_cons, fold_states_cons, hz, hp]
    exact fold_states_floating char_table ds hds
  have h := find_token_run char_table (z :: p :: ds) c rest size
    (by rw [hfold]; decide)
    (by
      rw [hfold]
      unfold is_digit_class at hc
      cases hct : char_table c <;> simp_all [get_next_state])
  simpa using h

/-- On a zero followed by a digit, `find_token` returns `token{}`. -/
theorem find_token_zero_then_digit (char_table : Char → e_char) (z d : Char)
    (rest : List Char) (size : Nat)
    (hz : char_table z = .zero) (hd : is_digit_class (char_table d)) :
    find_token char_table ⟨z :: d :: rest, size⟩ = .ok token.empty := by
  have h := find_token_run char_table [z] d rest size
    (by simp [fold_states, get_next_state, hz])
    (by
      unfold is_digit_class at hd
      rcases hd with hd | hd <;> simp [fold_states, get_next_state, hz, hd])
  simpa using h

/-- On a parenthesis followed by any character, `find_token` returns
`token{}`. -/
theorem find_token_parenthesis_then_any (char_table : Char → e_char) (p c : Char)
    (rest : List Char) (size : Nat) (hp : char_table p = .parenthesis) :
    find_token char_table ⟨p :: c :: rest, size⟩ = .ok token.empty := by
  have h := find_token_run char_table [p] c rest size
    (by simp [fold_states, get_next_state, hp])
    (by simp [fold_states, get_next_state, hp])
  simpa using h

/-- On an operator followed by any character, `find_token` returns
`token{}`. -/
theorem find_token_operator_then_any (char_table : Char → e_char) (o c : Char)
    (rest : List Char) (size : Nat) (ho : char_table o = .operators) :
    find_token char_table ⟨o :: c :: rest, size⟩ = .ok token.empty := by
  have h := find_token_run char_table [o] c rest size
    (by simp [fold_states, get_next_state, ho])
    (by simp [fold_states, get_next_state, ho])
  simpa using h

/-- On a first character of class invalid or dot, `fsm` returns `error` with
the iterator one past that character. -/
theorem fsm_unrecognized_first (char_table : Char → e_char) (c : Char)
    (rest : List Char) (h : char_table c = .invalid ∨ char_table c = .dot) :
    fsm char_table (c :: rest) = .ok (.error, 1) := by
  have h := fsm_run char_table [] c rest (by simp [fold_states])
    (by rcases h with h | h <;> simp [fold_states, get_next_state, h])
  simpa using h

/-! ## The claims of the specification -/

/-- C1, evaluated on the code: the input "123abc" is a nonzero digit, two more
digits and then a letter, yet `fsm` steps over `1`, `2`, `3` and `a`, returns
`error` with the iterator at offset 4, and `find_token` returns `token{}`, not
the `nonzero_digit` token with text "123". -/
theorem find_token_123abc :
    "123abc".toList.map sample_char_table =
      [.nonzero_digit, .nonzero_digit, .nonzero_digit, .character, .character, .character] ∧
    fsm sample_char_table (string_view.of_c_str "123abc").data = .ok (.error, 4) ∧
    find_token sample_char_table (string_view.of_c_str "123abc") = .ok token.empty ∧
    find_token sample_char_table (string_view.of_c_str "123abc") ≠
      .ok (token.mk ⟨(string_view.of_c_str "123abc").data, 3⟩ .nonzero_digit) := by
  refine ⟨rfl, rfl, rfl, ?_⟩
  intro h
  have he : find_token sample_char_table (string_view.of_c_str "123abc") = .ok token.empty := rfl
  rw [he] at h
  cases h

/-- C3, evaluated on the code: on "0.5+1" (a zero, a dot, a digit, then an
operator) `fsm` steps over `0`, `.`, `5` and `+` and returns `error` at offset
4; on "0.5" it steps over the three characters and the terminator behind them.
In both cases `find_token` returns `token{}`, not the `floating` token with
text "0.5". -/
theorem find_token_zero_dot_five :
    "0.5+1".toList.map sample_char_table =
      [.zero, .dot, .nonzero_digit, .operators, .nonzero_digit] ∧
    fsm sample_char_table (string_view.of_c_str "0.5+1").data = .ok (.error, 4) ∧
    find_token sample_char_table (string_view.of_c_str "0.5+1") = .ok token.empty ∧
    find_token sample_char_table (string_view.of_c_str "0.5+1") ≠
      .ok (token.mk ⟨(string_view.of_c_str "0.5+1").data, 3⟩ .floating) ∧
    fsm sample_char_table (string_view.of_c_str "0.5").data = .ok (.error, 4) ∧
    find_token sample_char_table (string_view.of_c_str "0.5") = .ok token.empty := by
  refine ⟨rfl, rfl, rfl, ?_, rfl, rfl⟩
  intro h
  have he : find_token sample_char_table (string_view.of_c_str "0.5+1") = .ok token.empty := rfl
  rw [he] at h
  cases h

/-- C4, evaluated on the code: on "05" `fsm` steps over `0` and `5`, returns
`error` with the iterator at offset 2, and `find_token` returns `token{}`, not
a token with text "0". -/
theorem find_token_zero_five :
    "05".toList.map sample_char_table = [.zero, .nonzero_digit] ∧
    fsm sample_char_table (string_view.of_c_str "05").data = .ok (.error, 2) ∧
    find_token sample_char_table (string_view.of_c_str "05") = .ok token.empty ∧
    find_token sample_char_table (string_view.of_c_str "05") ≠
      .ok (token.mk ⟨(string_view.of_c_str "05").data, 1⟩ .zero) := by
  refine ⟨rfl, rfl, rfl, ?_⟩
  intro h
  have he : find_token sample_char_table (string_view.of_c_str "05") = .ok token.empty := rfl
  rw [he] at h
  cases h

/-- C5, evaluated on the code: on "(1)" `fsm` steps over `(` and `1`, returns
`error` with the iterator at offset 2, and `find_token` returns `token{}`, not
the `parenthesis` token of length 1. -/
theorem find_token_paren_one :
    sample_char_table '(' = .parenthesis ∧
    fsm sample_char_table (string_view.of_c_str "(1)").data = .ok (.error, 2) ∧
    find_token sample_char_table (string_view.of_c_str "(1)") = .ok token.empty ∧
    find_token sample_char_table (string_view.of_c_str "(1)") ≠
      .ok (token.mk ⟨(string_view.of_c_str "(1)").data, 1⟩ .parenthesis) := by
  refine ⟨rfl, rfl, rfl, ?_⟩
  intro h
  have he : find_token sample_char_table (string_view.of_c_str "(1)") = .ok token.empty := rfl
  rw [he] at h
  cases h

/-- C6, evaluated on the code: on "+1" `fsm` steps over `+` and `1`, returns
`error` with the iterator at offset 2, and `find_token` returns `token{}`, not
the `op` token of length 1. -/
theorem find_token_plus_one :
    sample_char_table '+' = .operators ∧
    fsm sample_char_table (string_view.of_c_str "+1").data = .ok (.error, 2) ∧
    find_token sample_char_table (string_view.of_c_str "+1") = .ok token.empty ∧
    find_token sample_char_table (string_view.of_c_str "+1") ≠
      .ok (token.mk ⟨(string_view.of_c_str "+1").data, 1⟩ .op) := by
  refine ⟨rfl, rfl, rfl, ?_⟩
  intro h
  have he : find_token sample_char_table (string_view.of_c_str "+1") = .ok token.empty := rfl
  rw [he] at h
  cases h

/-- C7, evaluated on the code: on three blanks followed by "foo" `fsm` steps
over the blanks and `f` and returns `error` at offset 4; on "foo" it steps over
the three letters and the terminator.  Both calls of `find_token` return
`token{}`; neither returns the `word` token with text "foo". -/
theorem find_token_blanks_foo :
    "   foo".toList.map sample_char_table =
      [.whitespace, .whitespace, .whitespace, .character, .character, .character] ∧
    fsm sample_char_table (string_view.of_c_str "   foo").data = .ok (.error, 4) ∧
    find_token sample_char_table (string_view.of_c_str "   foo") = .ok token.empty ∧
    fsm sample_char_table (string_view.of_c_str "foo").data = .ok (.error, 4) ∧
    find_token sample_char_table (string_view.of_c_str "foo") = .ok token.empty ∧
    find_token sample_char_table (string_view.of_c_str "   foo") ≠
      .ok (token.mk ⟨(string_view.of_c_str "foo").data, 3⟩ .word) := by
  refine ⟨rfl, rfl, rfl, rfl, rfl, ?_⟩
  intro h
  have he : find_token sample_char_table (string_view.of_c_str "   foo") = .ok token.empty := rfl
  rw [he] at h
  cases h

/-- C8 as stated fails: a well-formed view of one blank, over an object that
ends with that blank, consists solely of whitespace, and `find_token` does
not return `token{}` on it: `fsm` reads on behind the view and leaves the
object. -/
theorem find_token_blank_unterminated :
    (string_view.of_array " ").wf ∧
    (string_view.of_array " ").text ≠ [] ∧
    (∀ w ∈ (string_view.of_array " ").text, sample_char_table w = .whitespace) ∧
    find_token sample_char_table (string_view.of_array " ") = .error .out_of_bounds ∧
    find_token sample_char_table (string_view.of_array " ") ≠ .ok token.empty := by
  refine ⟨by decide, by decide, by decide, rfl, ?_⟩
  intro h
  have he : find_token sample_char_table (string_view.of_array " ") =
      .error .out_of_bounds := rfl
  rw [he] at h
  cases h

/-- C8, amended: when the input consists solely of one or more whitespace
characters and the character stored behind it is not of class whitespace,
`find_token` returns `token{}`; and whatever is stored behind such an input,
`find_token` never returns a token carrying a category. -/
theorem find_token_whitespace_only (char_table : Char → e_char) (ws : List Char)
    (c : Char) (rest : List Char) (hne : ws ≠ [])
    (hws : ∀ w ∈ ws, char_table w = .whitespace) (hc : char_table c ≠ .whitespace) :
    find_token char_table ⟨ws ++ c :: rest, ws.length⟩ = .ok token.empty ∧
    ∀ (mem : List Char) (text : string_view) (type : token.type),
      find_token char_table ⟨ws ++ mem, ws.length⟩ ≠ .ok (token.mk text type) := by
  constructor
  · have hfold : fold_states .start (ws.map char_table) = .whitespaces := by
      cases ws with
      | nil => exact absurd rfl hne
      | cons w ws =>
        rw [List.map_cons, fold_states_cons, hws w (List.mem_cons_self _ _)]
        exact fold_states_whitespaces char_table ws
          (fun x hx => hws x (List.mem_cons_of_mem _ hx))
    exact find_token_run char_table ws c rest ws.length
      (by rw [hfold]; decide)
      (by rw [hfold]; simp [get_next_state, hc])
  · intro mem text type h
    have he := find_token_ok_empty _ _ _ h
    cases he

theorem find_token_whitespace_only_witness :
    "   ".toList ≠ [] ∧
    (∀ w ∈ "   ".toList, sample_char_table w = .whitespace) ∧
    sample_char_table (Char.ofNat 0) ≠ .whitespace ∧
    find_token sample_char_table (string_view.of_c_str "   ") = .ok token.empty :=
  ⟨by decide, by decide, by decide,
    (find_token_whitespace_only sample_char_table "   ".toList (Char.ofNat 0) []
      (by decide) (by decide) (by decide)).1⟩

/-- C9: when the first character of the input has class invalid or dot,
`find_token` returns `token{}`, whatever follows and whatever the length of
the view. -/
theorem find_token_unrecognized_first (char_table : Char → e_char) (c : Char)
    (rest : List Char) (size : Nat)
    (h : char_table c = .invalid ∨ char_table c = .dot) :
    find_token char_table ⟨c :: rest, size⟩ = .ok token.empty := by
  unfold find_token find_token_loop
  rw [fsm_unrecognized_first char_table c rest h]

theorem find_token_unrecognized_first_witness :
    (sample_char_table '#' = .invalid ∨ sample_char_table '#' = .dot) ∧
    find_token sample_char_table (string_view.of_c_str "#") = .ok token.empty ∧
    (sample_char_table '.' = .invalid ∨ sample_char_table '.' = .dot) ∧
    find_token sample_char_table (string_view.of_c_str ".5") = .ok token.empty :=
  ⟨Or.inl rfl,
    find_token_unrecognized_first sample_char_table '#' [Char.ofNat 0] 1 (Or.inl rfl),
    Or.inr rfl,
    find_token_unrecognized_first sample_char_table '.' ['5', Char.ofNat 0] 2 (Or.inr rfl)⟩

/-- C10, evaluated on the code: on "#", whose first character has class
invalid, `fsm` returns `error` with the iterator at offset 1, one past the
character, not at the offset 0 at which it was entered; the same on ".5". -/
theorem fsm_hash_position :
    sample_char_table '#' = .invalid ∧
    fsm sample_char_table (string_view.of_c_str "#").data = .ok (.error, 1) ∧
    fsm sample_char_table (string_view.of_c_str "#").data ≠ .ok (.error, 0) ∧
    sample_char_table '.' = .dot ∧
    fsm sample_char_table (string_view.of_c_str ".5").data = .ok (.error, 1) := by
  refine ⟨rfl, rfl, ?_, rfl, rfl⟩
  intro h
  have he : fsm sample_char_table (string_view.of_c_str "#").data = .ok (.error, 1) := rfl
  rw [he] at h
  cases h

/-! ## The state machine: `get_next_state` and `is_accepted` -/

/-- A step that does not end in `error` uses up a dot of the allowance of
`max_dots` whenever it reads one. -/
theorem max_dots_step (state : e_state) (c : e_char) :
    get_next_state state c = .error ∨
      (if c = .dot then 1 else 0) + max_dots (get_next_state state c) ≤ max_dots state := by
  cases state <;> cases c <;> decide

/-- A class sequence that leads from `state` to an accepting state holds at
most `max_dots state` dots. -/
theorem count_dot_le_max_dots (classes : List e_char) :
    ∀ state : e_state, is_accepted (fold_states state classes) = true →
      classes.count .dot ≤ max_dots state := by
  induction classes with
  | nil => intro state _; simp
  | cons c cs ih =>
    intro state h
    rw [fold_states_cons] at h
    rcases max_dots_step state c with he | hle
    · rw [he, fold_states_error] at h
      simp [is_accepted] at h
    · have hcs := ih _ h
      by_cases hc : c = .dot
      · subst hc
        simp only [if_true] at hle
        rw [List.count_cons_self]
        omega
      · simp only [hc, if_false] at hle
        rw [List.count_cons_of_ne (Ne.symm hc)]
        omega

/-- No step of the machine leads to `start`. -/
theorem get_next_state_ne_start (state : e_state) (c : e_char) (h : state ≠ .start) :
    get_next_state state c ≠ .start := by
  cases state <;> cases c <;> simp_all [get_next_state]

/-- A fold that does not begin in `start` does not end there. -/
theorem fold_states_ne_start (classes : List e_char) :
    ∀ state : e_state, state ≠ .start → fold_states state classes ≠ .start := by
  induction classes with
  | nil => intro state h; exact h
  | cons c cs ih =>
    intro state h
    rw [fold_states_cons]
    exact ih _ (get_next_state_ne_start state c h)

/-- C15: `get_next_state` agrees with the transition table of the specification
on every pair of a state and a character class; the rows of `operators` and
`parenthesis` and the column of `invalid` hold nothing but `error`, and `error`
is absorbing. -/
theorem get_next_state_eq_spec_table :
    (∀ (state : e_state) (c : e_char), get_next_state state c = spec_table state c) ∧
    (∀ c : e_char, get_next_state .operators c = .error) ∧
    (∀ c : e_char, get_next_state .parenthesis c = .error) ∧
    (∀ state : e_state, get_next_state state .invalid = .error) ∧
    (∀ c : e_char, get_next_state .error c = .error) := by
  refine ⟨?_, ?_, ?_, ?_, ?_⟩
  · intro state c
    cases state <;> cases c <;> rfl
  · intro c
    rfl
  · intro c
    rfl
  · intro state
    cases state <;> rfl
  · intro c
    rfl

/-- C16: a class sequence that leads from `start` to an accepting state holds
at most one dot, and if it begins with the class zero it either has length 1
or has a dot in second place. -/
theorem accepted_sequence_grammar (classes : List e_char)
    (h : is_accepted (fold_states .start classes) = true) :
    classes.count .dot ≤ 1 ∧
    (classes.head? = some .zero → classes.length = 1 ∨ classes.get? 1 = some .dot) := by
  constructor
  · exact count_dot_le_max_dots classes .start h
  · intro hz
    cases classes with
    | nil => simp at hz
    | cons c cs =>
      simp only [List.head?_cons, Option.some.injEq] at hz
      subst hz
      cases cs with
      | nil => left; rfl
      | cons d ds =>
        right
        rw [fold_states_cons, fold_states_cons] at h
        by_cases hd : d = .dot
        · subst hd
          rfl
        · have he : get_next_state (get_next_state .start .zero) d = .error := by
            cases d <;> simp_all [get_next_state]
          rw [he, fold_states_error] at h
          simp [is_accepted] at h

theorem accepted_sequence_grammar_witness :
    is_accepted (fold_states .start [.zero, .dot, .nonzero_digit, .zero]) = true ∧
    [e_char.zero, .dot, .nonzero_digit, .zero].count .dot ≤ 1 ∧
    ([e_char.zero, .dot, .nonzero_digit, .zero].head? = some .zero →
      [e_char.zero, .dot, .nonzero_digit, .zero].length = 1 ∨
      [e_char.zero, .dot, .nonzero_digit, .zero].get? 1 = some .dot) :=
  ⟨rfl, accepted_sequence_grammar [.zero, .dot, .nonzero_digit, .zero] rfl⟩

/-- C17: `is_accepted` holds of exactly the seven states whitespaces,
operators, parenthesis, zero, nonzero_digits, floating and word, and of
neither `start` nor `error`; and the state reached from `start` by a non-empty
class sequence is accepting or `error`, never `start`. -/
theorem is_accepted_states :
    (∀ state : e_state, is_accepted state = true ↔
      state = .whitespaces ∨ state = .operators ∨ state = .parenthesis ∨ state = .zero ∨
      state = .nonzero_digits ∨ state = .floating ∨ state = .word) ∧
    is_accepted .start = false ∧
    is_accepted .error = false ∧
    (∀ (c : e_char) (cs : List e_char),
      (is_accepted (fold_states .start (c :: cs)) = true ∨
        fold_states .start (c :: cs) = .error) ∧
      fold_states .start (c :: cs) ≠ .start) := by
  refine ⟨?_, rfl, rfl, ?_⟩
  · intro state
    cases state <;> simp [is_accepted]
  · intro c cs
    have hne : fold_states .start (c :: cs) ≠ .start := by
      rw [fold_states_cons]
      apply fold_states_ne_start
      cases c <;> simp [get_next_state]
    refine ⟨?_, hne⟩
    generalize fold_states .start (c :: cs) = state at hne
    cases state <;> simp_all [is_accepted]

/-- C19: the class sequences zero, dot and nonzero digit, dot lead from `start`
to `floating`, which `is_accepted` accepts, and every class sequence that
begins with a dot leads to `error`, which it does not accept. -/
theorem dot_needs_leading_digit :
    fold_states .start [.zero, .dot] = .floating ∧
    fold_states .start [.nonzero_digit, .dot] = .floating ∧
    is_accepted .floating = true ∧
    (∀ cs : List e_char, fold_states .start (.dot :: cs) = .error) ∧
    is_accepted .error = false := by
  refine ⟨rfl, rfl, rfl, ?_, rfl⟩
  intro cs
  rw [fold_states_cons]
  exact fold_states_error cs

/-! ## The scanner: reads, termination and result -/

/-- When the first loop of `fsm` is left, the iterator has advanced by the
number of reads. -/
theorem fsm_scan_pos_eq_reads (char_table : Char → e_char) (mem : List Char) :
    ∀ (state : e_state) (stack : List e_state) (pos : Nat)
      (r : e_state × List e_state × Nat),
      fsm_scan char_table mem state stack pos = .ok r →
      r.2.2 = pos + fsm_reads char_table mem state := by
  induction mem with
  | nil =>
    intro state stack pos r h
    by_cases hs : state = .error
    · subst hs
      simp [fsm_scan] at h
      simp [fsm_reads, ← h]
    · simp [fsm_scan, hs] at h
  | cons c mem ih =>
    intro state stack pos r h
    by_cases hs : state = .error
    · subst hs
      rw [fsm_scan_error] at h
      cases h
      simp [fsm_reads]
    · rw [fsm_scan_step _ _ _ _ _ _ hs] at h
      have := ih _ _ _ _ h
      simp only [fsm_reads, hs, ne_eq, not_false_eq_true, if_true]
      omega

/-- When the first loop of `fsm`, entered outside `error`, is left, the memory
splits into characters that kept the machine out of `error` and the character
that drove it into `error`, and the iterator stands one past that
character. -/
theorem fsm_scan_ok_split (char_table : Char → e_char) (mem : List Char) :
    ∀ (state : e_state) (stack : List e_state) (pos : Nat)
      (r : e_state × List e_state × Nat),
      state ≠ .error → fsm_scan char_table mem state stack pos = .ok r →
      ∃ pre c rest, mem = pre ++ c :: rest ∧ r.2.2 = pos + pre.length + 1 ∧
        fold_states state (pre.map char_table) ≠ .error ∧
        get_next_state (fold_states state (pre.map char_table)) (char_table c) = .error := by
  induction mem with
  | nil =>
    intro state stack pos r hs h
    simp [fsm_scan, hs] at h
  | cons x mem ih =>
    intro state stack pos r hs h
    rw [fsm_scan_step _ _ _ _ _ _ hs] at h
    by_cases hn : get_next_state state (char_table x) = .error
    · rw [hn, fsm_scan_error] at h
      cases h
      exact ⟨[], x, mem, rfl, rfl, hs, hn⟩
    · obtain ⟨pre, c, rest, hmem, hpos, h1, h2⟩ := ih _ _ _ _ hn h
      refine ⟨x :: pre, c, rest, ?_, ?_, h1, h2⟩
      · rw [hmem]
        rfl
      · rw [hpos, List.length_cons]
        omega

/-- One read of the first loop of `fsm`. -/
theorem fsm_reads_cons (char_table : Char → e_char) (c : Char) (mem : List Char)
    (state : e_state) (h : state ≠ .error) :
    fsm_reads char_table (c :: mem) state =
      fsm_reads char_table mem (get_next_state state (char_table c)) + 1 := by
  simp [fsm_reads, h]

/-- The number of reads on characters `pre` that keep the machine out of
`error`, followed by a character `c` that drives it into `error`. -/
theorem fsm_reads_run (char_table : Char → e_char) (c : Char) (rest : List Char)
    (pre : List Char) :
    ∀ state : e_state,
      fold_states state (pre.map char_table) ≠ .error →
      get_next_state (fold_states state (pre.map char_table)) (char_table c) = .error →
      fsm_reads char_table (pre ++ c :: rest) state = pre.length + 1 := by
  induction pre with
  | nil =>
    intro state h1 h2
    have h1 : state ≠ .error := h1
    have h2 : get_next_state state (char_table c) = .error := h2
    cases rest <;> simp [fsm_reads, h1, h2]
  | cons p pre ih =>
    intro state h1 h2
    rw [List.map_cons, fold_states_cons] at h1 h2
    have hs : state ≠ .error := by
      intro he
      subst he
      rw [get_next_state_error, fold_states_error] at h1
      exact h1 rfl
    rw [List.cons_append, fsm_reads_cons _ _ _ _ hs, ih _ h1 h2, List.length_cons]

/-- A character of class invalid stops the first loop of `fsm`, wherever in
the memory it stands and whatever state the loop is entered in. -/
theorem fsm_scan_reaches_invalid (char_table : Char → e_char) (c : Char)
    (rest : List Char) (hc : char_table c = .invalid) (pre : List Char) :
    ∀ (state : e_state) (stack : List e_state) (pos : Nat),
      ∃ r, fsm_scan char_table (pre ++ c :: rest) state stack pos = .ok r ∧
        r.2.2 ≤ pos + pre.length + 1 := by
  induction pre with
  | nil =>
    intro state stack pos
    by_cases hs : state = .error
    · subst hs
      exact ⟨_, fsm_scan_error _ _ _ _, by simp⟩
    · have hn : get_next_state state (char_table c) = .error := by
        rw [hc]
        cases state <;> rfl
      have e : fsm_scan char_table ([] ++ c :: rest) state stack pos =
          .ok (.error, .error :: (if is_accepted .error then [] else stack), pos + 1) := by
        rw [List.nil_append, fsm_scan_step _ _ _ _ _ _ hs, hn, fsm_scan_error]
      exact ⟨_, e, by simp⟩
  | cons x pre ih =>
    intro state stack pos
    by_cases hs : state = .error
    · subst hs
      exact ⟨_, fsm_scan_error _ _ _ _, by simp only [List.length_cons]; omega⟩
    · obtain ⟨r, hr, hle⟩ := ih (get_next_state state (char_table x))
        (get_next_state state (char_table x) ::
          if is_accepted (get_next_state state (char_table x)) then [] else stack)
        (pos + 1)
      refine ⟨r, ?_, ?_⟩
      · rw [List.cons_append, fsm_scan_step _ _ _ _ _ _ hs, hr]
      · rw [List.length_cons]
        omega

/-- C13 as stated fails: on the one-character input "1", a view of length 1
onto a NUL-terminated string, `fsm` reads two characters, the second of them
at the end position of the view, and returns with the iterator at offset
2. -/
theorem fsm_reads_behind_view :
    (string_view.of_c_str "1").wf ∧
    (string_view.of_c_str "1").size = 1 ∧
    fsm_reads sample_char_table (string_view.of_c_str "1").data .start = 2 ∧
    fsm sample_char_table (string_view.of_c_str "1").data = .ok (.error, 2) ∧
    ¬ fsm_reads sample_char_table (string_view.of_c_str "1").data .start ≤
      (string_view.of_c_str "1").size := by
  refine ⟨by decide, rfl, rfl, rfl, by decide⟩

/-- C13, amended: `fsm` reads the characters at the offsets 0, 1, ... up to
and including the first one that drives the machine into `error`, and none
after it; its reads are all at indices below the length of the view exactly
when that character lies inside the view. -/
theorem fsm_reads_up_to_error (char_table : Char → e_char) (pre : List Char) (c : Char)
    (rest : List Char)
    (h1 : fold_states .start (pre.map char_table) ≠ .error)
    (h2 : get_next_state (fold_states .start (pre.map char_table)) (char_table c) = .error) :
    fsm_reads char_table (pre ++ c :: rest) .start = pre.length + 1 ∧
    fsm char_table (pre ++ c :: rest) = .ok (.error, pre.length + 1) ∧
    ∀ size : Nat,
      fsm_reads char_table (pre ++ c :: rest) .start ≤ size ↔ pre.length < size := by
  have hr := fsm_reads_run char_table c rest pre .start h1 h2
  refine ⟨hr, fsm_run char_table pre c rest h1 h2, ?_⟩
  intro size
  rw [hr]
  omega

theorem fsm_reads_up_to_error_witness :
    fold_states .start ("123".toList.map sample_char_table) ≠ .error ∧
    get_next_state (fold_states .start ("123".toList.map sample_char_table))
      (sample_char_table 'a') = .error ∧
    fsm_reads sample_char_table (string_view.of_c_str "123abc").data .start = 4 ∧
    fsm sample_char_table (string_view.of_c_str "123abc").data = .ok (.error, 4) ∧
    fsm_reads sample_char_table (string_view.of_c_str "123abc").data .start ≤
      (string_view.of_c_str "123abc").size :=
  have h := fsm_reads_up_to_error sample_char_table "123".toList 'a'
    ['b', 'c', Char.ofNat 0] (by decide) (by decide)
  ⟨by decide, by decide, h.1, h.2.1, (h.2.2 6).2 (by decide)⟩

/-- C14 as stated fails: on the finite input "1", a well-formed view that
fills its one-character object, the scanning loop of `fsm` does not reach
`error`; it runs off the end of the object, and so does `find_token`. -/
theorem fsm_runs_off_the_end :
    (string_view.of_array "1").wf ∧
    (string_view.of_array "1").text = ['1'] ∧
    fsm sample_char_table (string_view.of_array "1").data = .error .out_of_bounds ∧
    find_token sample_char_table (string_view.of_array "1") = .error .out_of_bounds := by
  refine ⟨by decide, rfl, rfl, rfl⟩

/-- A character of class invalid in the memory of the input, in the view or
behind it, makes `fsm` terminate, its scanning loop having read no further
than that character, and makes `find_token` terminate with a token. -/
theorem fsm_terminates_at_invalid (char_table : Char → e_char) (pre : List Char)
    (c : Char) (rest : List Char) (size : Nat) (hc : char_table c = .invalid) :
    (∃ r, fsm char_table (pre ++ c :: rest) = .ok r ∧ r.2 ≤ pre.length + 1 ∧
      fsm_reads char_table (pre ++ c :: rest) .start = r.2) ∧
    ∃ tok, find_token char_table ⟨pre ++ c :: rest, size⟩ = .ok tok := by
  obtain ⟨r, hr, hle⟩ := fsm_scan_reaches_invalid char_table c rest hc pre .start [.error] 0
  have hs : r.1 = .error := fsm_scan_ok_error _ _ _ _ _ _ hr
  have hreads := fsm_scan_pos_eq_reads _ _ _ _ _ _ hr
  obtain ⟨state, stack, pos⟩ := r
  simp only at hs hle hreads
  subst hs
  have hfsm : fsm char_table (pre ++ c :: rest) = .ok (.error, pos) := by
    unfold fsm
    rw [hr]
    simp only [fsm_backtrack_error]
    simp [is_accepted]
  constructor
  · exact ⟨(.error, pos), hfsm, by simpa using hle, by simpa using hreads.symm⟩
  · refine ⟨token.empty, ?_⟩
    unfold find_token
    rw [find_token_loop_succ]
    simp only [hfsm]

theorem fsm_terminates_at_invalid_witness :
    sample_char_table (Char.ofNat 0) = .invalid ∧
    (∃ r, fsm sample_char_table (string_view.of_c_str "1").data = .ok r ∧ r.2 ≤ 1 + 1 ∧
      fsm_reads sample_char_table (string_view.of_c_str "1").data .start = r.2) ∧
    ∃ tok, find_token sample_char_table (string_view.of_c_str "1") = .ok tok :=
  ⟨by decide, fsm_terminates_at_invalid sample_char_table ['1'] (Char.ofNat 0) [] 1 (by decide)⟩

/-- C18: whenever `fsm` returns, it returns `error`.  The scanning loop is
left in state `error`, the guard of the backtrack loop is false there, the
backtrack loop hands state and position back unchanged, the position is one
past the first character that drove the machine into `error`, and
`find_token` returns `token{}`. -/
theorem fsm_returns_error (char_table : Char → e_char) (input : string_view)
    (r : e_state × Nat) (h : fsm char_table input.data = .ok r) :
    r.1 = .error ∧
    (∃ state stack, fsm_scan char_table input.data .start [.error] 0 = .ok (state, stack, r.2) ∧
      state = .error ∧ ¬ ((!is_accepted state) = true ∧ state ≠ .error) ∧
      fsm_backtrack stack state r.2 = .ok (state, r.2)) ∧
    (∃ pre c rest, input.data = pre ++ c :: rest ∧ r.2 = pre.length + 1 ∧
      fold_states .start (pre.map char_table) ≠ .error ∧
      get_next_state (fold_states .start (pre.map char_table)) (char_table c) = .error) ∧
    find_token char_table input = .ok token.empty := by
  have hfsm := h
  unfold fsm at h
  split at h
  · cases h
  · rename_i state stack pos hscan
    have hs : state = .error := fsm_scan_ok_error _ _ _ _ _ _ hscan
    subst hs
    rw [fsm_backtrack_error] at h
    simp [is_accepted] at h
    subst h
    obtain ⟨pre, c, rest, hmem, hpos, h1, h2⟩ :=
      fsm_scan_ok_split _ _ _ _ _ _ (by decide) hscan
    refine ⟨rfl, ⟨.error, stack, hscan, rfl, by simp, fsm_backtrack_error _ _⟩,
      ⟨pre, c, rest, hmem, by simpa using hpos, h1, h2⟩, ?_⟩
    unfold find_token
    rw [find_token_loop_succ]
    simp only [hfsm]

theorem fsm_returns_error_witness :
    fsm sample_char_table (string_view.of_c_str "123abc").data = .ok (.error, 4) ∧
    (∃ pre c rest, (string_view.of_c_str "123abc").data = pre ++ c :: rest ∧
      4 = pre.length + 1 ∧
      fold_states .start (pre.map sample_char_table) ≠ .error ∧
      get_next_state (fold_states .start (pre.map sample_char_table))
        (sample_char_table c) = .error) ∧
    find_token sample_char_table (string_view.of_c_str "123abc") = .ok token.empty :=
  have h := fsm_returns_error sample_char_table (string_view.of_c_str "123abc") (.error, 4) rfl
  ⟨rfl, h.2.2.1, h.2.2.2⟩

/-! ## The loop of `find_token` -/

/-- The loop of `find_token` is `find_token_loop_with` run on `fsm`. -/
theorem find_token_loop_eq_with (char_table : Char → e_char) (fuel : Nat) :
    ∀ input : string_view,
      find_token_loop char_table fuel input =
        find_token_loop_with (fsm char_table) fuel input := by
  induction fuel with
  | zero => intro input; rfl
  | succ fuel ih =>
    intro input
    unfold find_token_loop find_token_loop_with
    cases hfsm : fsm char_table input.data with
    | error f => rfl
    | ok r =>
      obtain ⟨cur_state, n⟩ := r
      cases cur_state <;> try rfl
      simp only
      cases input.substr n with
      | error f => rfl
      | ok rest => exact ih rest

/-- The whitespace-stripped input is what is left of the input behind some
number of its characters. -/
theorem skip_whitespaces_drop (scan : List Char → Except fault (e_state × Nat))
    (fuel : Nat) :
    ∀ input stripped : string_view, skip_whitespaces scan fuel input = .ok stripped →
      ∃ k, k ≤ input.size ∧ stripped.data = input.data.drop k ∧
        stripped.size = input.size - k := by
  induction fuel with
  | zero =>
    intro input stripped h
    simp [skip_whitespaces] at h
  | succ fuel ih =>
    intro input stripped h
    unfold skip_whitespaces at h
    cases hscan : scan input.data with
    | error f => simp [hscan] at h
    | ok r =>
      obtain ⟨cur_state, n⟩ := r
      simp only [hscan] at h
      by_cases hw : cur_state = .whitespaces
      · simp only [hw, if_true] at h
        by_cases hn : n > input.size
        · simp [string_view.substr, hn] at h
        · simp only [string_view.substr, hn, if_false] at h
          obtain ⟨k, hk, hdata, hsize⟩ := ih _ _ h
          simp only at hk hdata hsize
          refine ⟨n + k, by omega, ?_, by omega⟩
          rw [hdata, List.drop_drop]
      · simp only [hw, if_false] at h
        cases h
        exact ⟨0, Nat.zero_le _, rfl, rfl⟩

/-- The switch of `find_token` taken by itself, over any scanner: when the
scanner's state on the whitespace-stripped input is operators, parenthesis,
zero, nonzero_digits, floating or word with matched length `n`, the loop
returns the token of the category op, parenthesis, zero, nonzero_digit,
floating or word, whose view starts where the whitespace-stripped input starts
and has length `n`.  On `fsm` the premise `hscan` is never met
(`fsm_ok_error`). -/
theorem find_token_category_and_span (scan : List Char → Except fault (e_state × Nat))
    (fuel : Nat) (input stripped : string_view) (state : e_state) (n : Nat)
    (type : token.type)
    (hskip : skip_whitespaces scan fuel input = .ok stripped)
    (hscan : scan stripped.data = .ok (state, n))
    (hcat : category_of state = some type)
    (hn : n ≤ stripped.size) :
    find_token_loop_with scan fuel input = .ok (token.mk ⟨stripped.data, n⟩ type) ∧
    (⟨stripped.data, n⟩ : string_view).text = stripped.text.take n ∧
    (∃ k, k ≤ input.size ∧ stripped.data = input.data.drop k ∧
      stripped.size = input.size - k) := by
  refine ⟨?_, ?_, skip_whitespaces_drop scan fuel input stripped hskip⟩
  · clear hn
    induction fuel generalizing input with
    | zero => simp [skip_whitespaces] at hskip
    | succ fuel ih =>
      unfold skip_whitespaces at hskip
      unfold find_token_loop_with
      cases hs : scan input.data with
      | error f => simp [hs] at hskip
      | ok r =>
        obtain ⟨cur_state, m⟩ := r
        simp only [hs] at hskip
        by_cases hw : cur_state = .whitespaces
        · subst hw
          simp only [if_true] at hskip
          simp only
          cases hsub : input.substr m with
          | error f => simp [hsub] at hskip
          | ok rest =>
            simp only [hsub] at hskip
            exact ih rest hskip
        · simp only [hw, if_false] at hskip
          cases hskip
          rw [hs] at hscan
          cases hscan
          cases state <;> simp_all [category_of]
  · simp only [string_view.text, List.take_take]
    congr 1
    omega

theorem find_token_category_and_span_witness :
    skip_whitespaces (scan_longest sample_char_table) 7 (string_view.of_c_str "  12+3") =
      .ok ⟨"12+3".toList ++ [Char.ofNat 0], 4⟩ ∧
    scan_longest sample_char_table ("12+3".toList ++ [Char.ofNat 0]) =
      .ok (.nonzero_digits, 2) ∧
    category_of .nonzero_digits = some .nonzero_digit ∧
    find_token_loop_with (scan_longest sample_char_table) 7 (string_view.of_c_str "  12+3") =
      .ok (token.mk ⟨"12+3".toList ++ [Char.ofNat 0], 2⟩ .nonzero_digit) ∧
    (⟨"12+3".toList ++ [Char.ofNat 0], 2⟩ : string_view).text = ['1', '2'] :=
  have h := find_token_category_and_span (scan_longest sample_char_table) 7
    (string_view.of_c_str "  12+3") ⟨"12+3".toList ++ [Char.ofNat 0], 4⟩ .nonzero_digits 2
    .nonzero_digit rfl rfl rfl (by decide)
  ⟨rfl, rfl, rfl, h.1, rfl⟩

/-- The round trip over `find_token` ends with its first call: it collects
nothing whenever that call returns. -/
theorem round_trip_find_token (char_table : Char → e_char) (fuel : Nat)
    (input : string_view) :
    round_trip (find_token char_table) (fuel + 1) input =
      match find_token char_table input with
      | .error f => .error f
      | .ok _ => .ok [] := by
  unfold round_trip
  cases h : find_token char_table input with
  | error f => rfl
  | ok tok =>
    have he := find_token_ok_empty _ _ _ h
    subst he
    rfl

/-- C11, evaluated on the code: on "1+2" the first call of `find_token` returns
`token{}`, so the round trip collects no span at all and does not reconstruct
the input; over a scanner that meets the contract of section 4.2 the same loop
of `find_token` does reconstruct "1+2". -/
theorem round_trip_one_plus_two :
    (string_view.of_c_str "1+2").text = ['1', '+', '2'] ∧
    find_token sample_char_table (string_view.of_c_str "1+2") = .ok token.empty ∧
    round_trip (find_token sample_char_table) 4 (string_view.of_c_str "1+2") = .ok [] ∧
    round_trip (find_token sample_char_table) 4 (string_view.of_c_str "1+2") ≠
      .ok (string_view.of_c_str "1+2").text ∧
    round_trip
      (fun input => find_token_loop_with (scan_longest sample_char_table) (input.size + 1) input)
      4 (string_view.of_c_str "1+2") = .ok ['1', '+', '2'] := by
  refine ⟨rfl, rfl, rfl, ?_, rfl⟩
  intro h
  have he : round_trip (find_token sample_char_table) 4 (string_view.of_c_str "1+2") =
      .ok [] := rfl
  rw [he] at h
  cases h

/-! ## Termination of the scanner, in general -/

/-- The only fault of the first loop of `fsm` is the read beyond the end of
the object. -/
theorem fsm_scan_fault (char_table : Char → e_char) (mem : List Char) :
    ∀ (state : e_state) (stack : List e_state) (pos : Nat) (f : fault),
      fsm_scan char_table mem state stack pos = .error f → f = .out_of_bounds := by
  induction mem with
  | nil =>
    intro state stack pos f h
    by_cases hs : state = .error
    · subst hs
      simp [fsm_scan] at h
    · simp [fsm_scan, hs] at h
      exact h.symm
  | cons c mem ih =>
    intro state stack pos f h
    by_cases hs : state = .error
    · subst hs
      rw [fsm_scan_error] at h
      cases h
    · rw [fsm_scan_step _ _ _ _ _ _ hs] at h
      exact ih _ _ _ _ h

/-- Either `fsm` returns, or its scanning loop has left the object. -/
theorem fsm_ok_or_out_of_bounds (char_table : Char → e_char) (mem : List Char) :
    (∃ r, fsm char_table mem = .ok r) ∨ fsm char_table mem = .error .out_of_bounds := by
  unfold fsm
  cases hscan : fsm_scan char_table mem .start [.error] 0 with
  | error f =>
    right
    rw [fsm_scan_fault _ _ _ _ _ _ hscan]
  | ok r =>
    left
    obtain ⟨state, stack, pos⟩ := r
    have hs : state = .error := fsm_scan_ok_error _ _ _ _ _ _ hscan
    subst hs
    simp only [fsm_backtrack_error]
    exact ⟨_, rfl⟩

/-- When `fsm` returns, the memory holds a character that drives the machine
into `error`, behind characters that keep it out of `error`. -/
theorem fsm_ok_split (char_table : Char → e_char) (mem : List Char)
    (r : e_state × Nat) (h : fsm char_table mem = .ok r) :
    ∃ pre c rest, mem = pre ++ c :: rest ∧
      fold_states .start (pre.map char_table) ≠ .error ∧
      get_next_state (fold_states .start (pre.map char_table)) (char_table c) = .error := by
  unfold fsm at h
  split at h
  · cases h
  · rename_i state stack pos hscan
    obtain ⟨pre, c, rest, hmem, _, h1, h2⟩ :=
      fsm_scan_ok_split _ _ _ _ _ _ (by decide) hscan
    exact ⟨pre, c, rest, hmem, h1, h2⟩

/-- C14, amended: `fsm` terminates exactly when the memory of the input, from
the start of the view to the end of its object, holds a character that drives
the machine into `error`, as every character of class invalid does.  Its
scanning loop then reads the characters up to and including the first such
character, and `find_token` terminates and returns a token.  In every other
case the scanning loop of `fsm` runs off the end of the object, and so does
`find_token`. -/
theorem fsm_terminates_iff (char_table : Char → e_char) (mem : List Char) (size : Nat) :
    ((∃ r, fsm char_table mem = .ok r) ↔
      ∃ pre c rest, mem = pre ++ c :: rest ∧
        fold_states .start (pre.map char_table) ≠ .error ∧
        get_next_state (fold_states .start (pre.map char_table)) (char_table c) = .error) ∧
    (∀ pre c rest, mem = pre ++ c :: rest →
      fold_states .start (pre.map char_table) ≠ .error →
      get_next_state (fold_states .start (pre.map char_table)) (char_table c) = .error →
      fsm_reads char_table mem .start = pre.length + 1) ∧
    (∀ pre c rest, mem = pre ++ c :: rest → char_table c = .invalid →
      ∃ r, fsm char_table mem = .ok r) ∧
    ((∃ r, fsm char_table mem = .ok r) →
      ∃ tok, find_token char_table ⟨mem, size⟩ = .ok tok) ∧
    ((¬ ∃ r, fsm char_table mem = .ok r) →
      fsm char_table mem = .error .out_of_bounds ∧
      find_token char_table ⟨mem, size⟩ = .error .out_of_bounds) := by
  refine ⟨⟨?_, ?_⟩, ?_, ?_, ?_, ?_⟩
  · rintro ⟨r, hr⟩
    exact fsm_ok_split char_table mem r hr
  · rintro ⟨pre, c, rest, hmem, h1, h2⟩
    rw [hmem]
    exact ⟨_, fsm_run char_table pre c rest h1 h2⟩
  · intro pre c rest hmem h1 h2
    rw [hmem]
    exact fsm_reads_run char_table c rest pre .start h1 h2
  · intro pre c rest hmem hc
    rw [hmem]
    obtain ⟨r, hr, _⟩ := (fsm_terminates_at_invalid char_table pre c rest size hc).1
    exact ⟨r, hr⟩
  · rintro ⟨r, hr⟩
    refine ⟨token.empty, ?_⟩
    unfold find_token
    rw [find_token_loop_succ]
    simp only [hr]
  · intro hno
    have hf : fsm char_table mem = .error .out_of_bounds := by
      rcases fsm_ok_or_out_of_bounds char_table mem with hok | hf
      · exact absurd hok hno
      · exact hf
    refine ⟨hf, ?_⟩
    unfold find_token
    rw [find_token_loop_succ]
    simp only [hf]

theorem fsm_terminates_iff_witness :
    (∃ r, fsm sample_char_table (string_view.of_c_str "1").data = .ok r) ∧
    (∃ tok, find_token sample_char_table (string_view.of_c_str "1") = .ok tok) ∧
    fsm_reads sample_char_table (string_view.of_c_str "1").data .start = 2 ∧
    (¬ ∃ r, fsm sample_char_table (string_view.of_array "1").data = .ok r) ∧
    fsm sample_char_table (string_view.of_array "1").data = .error .out_of_bounds ∧
    find_token sample_char_table (string_view.of_array "1") = .error .out_of_bounds :=
  have h1 := fsm_terminates_iff sample_char_table (string_view.of_c_str "1").data 1
  have h2 := fsm_terminates_iff sample_char_table (string_view.of_array "1").data 1
  have hno : ¬ ∃ r, fsm sample_char_table (string_view.of_array "1").data = .ok r := by
    rintro ⟨r, hr⟩
    have he : fsm sample_char_table (string_view.of_array "1").data =
        .error .out_of_bounds := rfl
    rw [he] at hr
    cases hr
  ⟨⟨_, rfl⟩, h1.2.2.2.1 ⟨_, rfl⟩,
    h1.2.1 ['1'] (Char.ofNat 0) [] rfl (by decide) (by decide),
    hno, (h2.2.2.2.2 hno).1, (h2.2.2.2.2 hno).2⟩

/-! ## The category and the span of the returned token -/

end parsing
